import Mathlib

/-!
Verification development for the `UsdStageCache` component
(`pxr/usd/lib/usd/stageCache.h`).

The `UsdStageCache::Id` struct is fully defined inline in the header, so its
embedding below is translated directly from that code.  The cache operations
themselves (`Insert`, `Find`, `Erase`, `FindAllMatching`, ...) are only
declared in the header; their bodies live in a translation unit that is not
part of the sources at hand, so those operations are modelled from the
specification text, as indicated by their doc comments.

Machine-integer conventions: C++ `long int` is embedded as `Int`, with the
64-bit range made explicit (`longMin`/`longMax`) where the code's behaviour
depends on it (string parsing range checks, the `size_t` cast in the hash).
-/

/-- Smallest value of a 64-bit `long int`. -/
def longMin : Int := -(2 ^ 63)

/-- Largest value of a 64-bit `long int`. -/
def longMax : Int := 2 ^ 63 - 1

/-- The decimal digit character for `k < 10` (used to render integers the way
`boost::lexical_cast<std::string>(long)` does). -/
def digitChar (k : Nat) : Char :=
  match k with
  | 0 => '0' | 1 => '1' | 2 => '2' | 3 => '3' | 4 => '4'
  | 5 => '5' | 6 => '6' | 7 => '7' | 8 => '8' | 9 => '9'
  | _ => '0'

/-- Decimal digit value of a character: `some (c - 48)` for `'0'..'9'`,
`none` otherwise (the character class `operator>>` accepts for base-10
integer extraction). -/
def digitVal (c : Char) : Option Nat :=
  if 48 ≤ c.toNat ∧ c.toNat ≤ 57 then some (c.toNat - 48) else none

/-- Render a natural number in decimal, most significant digit first, in
front of `acc`.  Fuel-structured so the kernel can evaluate it; `natToChars`
supplies sufficient fuel. -/
def natToCharsCore : Nat → Nat → List Char → List Char
  | 0, _, acc => acc
  | fuel + 1, n, acc =>
    if n < 10 then digitChar n :: acc
    else natToCharsCore fuel (n / 10) (digitChar (n % 10) :: acc)

/-- Decimal rendering of a natural number (no sign). -/
def natToChars (n : Nat) : List Char :=
  natToCharsCore (n + 1) n []

/-- Decimal rendering of a `long int`, the output format of
`boost::lexical_cast<std::string>(long)`: a leading `'-'` for negative
values, then the digits. -/
def intToChars (v : Int) : List Char :=
  if v < 0 then '-' :: natToChars v.natAbs else natToChars v.toNat

/-- Accumulating base-10 parse of a digit list; fails on any non-digit
character (stream extraction consumes digits only, and `lexical_cast`
requires the whole input to be consumed). -/
def parseDigitsAux : List Char → Nat → Option Nat
  | [], acc => some acc
  | c :: cs, acc =>
    match digitVal c with
    | some d => parseDigitsAux cs (acc * 10 + d)
    | none => none

/-- Parse a non-empty all-digit list; an empty digit sequence is a parse
failure. -/
def parseNat (cs : List Char) : Option Nat :=
  if cs.isEmpty then none else parseDigitsAux cs 0

/-- Strip one optional leading sign, reporting whether it was `'-'`
(stream integer extraction accepts one optional `'+'` or `'-'`). -/
def splitSign (cs : List Char) : Bool × List Char :=
  match cs with
  | c :: r => if c = '-' then (true, r) else if c = '+' then (false, r) else (false, cs)
  | [] => (false, [])

/-- The signed value denoted by a sign flag and a digit magnitude. -/
def signedVal (neg : Bool) (n : Nat) : Int := if neg then -(n : Int) else (n : Int)

/-- The overflow check of stream extraction: values outside `long int`'s
range set `failbit`, so `lexical_cast` fails. -/
def rangeCheck (v : Int) : Option Int :=
  if longMin ≤ v ∧ v ≤ longMax then some v else none

/-- `boost::lexical_cast<long int>(s)` on the character data of `s`:
optional sign, a non-empty run of decimal digits covering the whole input,
and the resulting value must fit in `long int`; `none` models the thrown
`bad_lexical_cast` in every other case. -/
def lexicalCastLong (cs : List Char) : Option Int :=
  (parseNat (splitSign cs).2).bind (fun n => rangeCheck (signedVal (splitSign cs).1 n))

/-- The failure raised by a malformed string-to-id conversion
(`boost::bad_lexical_cast` propagating out of `Id::FromString`). -/
inductive ParseError where
  | badLexicalCast
deriving DecidableEq, Repr

namespace UsdStageCache

/-- `UsdStageCache::Id`: a lightweight identifier wrapping a `long int`
`_value`; `-1` is the invalid sentinel. -/
structure Id where
  _value : Int
deriving DecidableEq, Repr

namespace Id

/-- The default constructor `Id() : _value(-1)`. -/
def mkDefault : Id := ⟨-1⟩

/-- `Id::FromLongInt(long int val)`: `return Id(val);`. -/
def FromLongInt (val : Int) : Id := ⟨val⟩

/-- `Id::ToLongInt()`: `return _value;`. -/
def ToLongInt (id : Id) : Int := id._value

/-- `Id::ToString()`: `boost::lexical_cast<std::string>(ToLongInt())`. -/
def ToString (id : Id) : String := ⟨intToChars id.ToLongInt⟩

/-- `Id::FromString(s)`: `FromLongInt(boost::lexical_cast<long int>(s))`;
the `bad_lexical_cast` exception is embedded as `Except.error`. -/
def FromString (s : String) : Except ParseError Id :=
  match lexicalCastLong s.data with
  | some v => Except.ok (FromLongInt v)
  | none => Except.error ParseError.badLexicalCast

/-- `Id::IsValid()`: `return _value != -1;`. -/
def IsValid (id : Id) : Prop := id._value ≠ -1

instance (id : Id) : Decidable id.IsValid := by
  unfold IsValid; infer_instance

/-- `operator==`: `lhs.ToLongInt() == rhs.ToLongInt()`. -/
def eqOp (lhs rhs : Id) : Prop := lhs.ToLongInt = rhs.ToLongInt

/-- `operator<`: `lhs.ToLongInt() < rhs.ToLongInt()`. -/
def ltOp (lhs rhs : Id) : Prop := lhs.ToLongInt < rhs.ToLongInt

/-- `operator>` as derived by `boost::totally_ordered`: `rhs < lhs`. -/
def gtOp (lhs rhs : Id) : Prop := ltOp rhs lhs

/-- `operator<=` as derived by `boost::totally_ordered`: `!(rhs < lhs)`. -/
def leOp (lhs rhs : Id) : Prop := ¬ ltOp rhs lhs

/-- `operator>=` as derived by `boost::totally_ordered`: `!(lhs < rhs)`. -/
def geOp (lhs rhs : Id) : Prop := ¬ ltOp lhs rhs

/-- The `size_t` cast of a `long int` value (two's complement, 64-bit). -/
def toSizeT (v : Int) : Nat := (v % (2 ^ 64 : Int)).toNat

/-- The 64-bit bitwise complement used by the hash. -/
def sizeTNot (v : Int) : Nat := 2 ^ 64 - 1 - toSizeT v

/-- `hash_value(id)`: `~size_t(id.ToLongInt())`. -/
def hash_value (id : Id) : Nat := sizeTNot id.ToLongInt

instance (a b : Id) : Decidable (a.eqOp b) := by
  unfold eqOp; infer_instance

instance (a b : Id) : Decidable (a.ltOp b) := by
  unfold ltOp; infer_instance

end Id

/-- Modelled from the spec: the compound key of an entry — a required
root-handle, an optional session-handle, an optional resolver-context;
the handle and context types are opaque equality-comparable values,
embedded as `Nat`.  (The key type is part of `Usd_StageCacheImpl`, whose
definition is not in the sources at hand.) -/
structure CompoundKey where
  rootLayer : Nat
  sessionLayer : Option Nat
  pathResolverContext : Option Nat
deriving DecidableEq, Repr

/-- Modelled from the spec: a cache entry `(id, key, handle)`; `stage` is
the identity of the shared scene handle (reference counting is outside the
model — copying a cache copies these identities, never mints new ones). -/
structure Entry where
  id : Id
  key : CompoundKey
  stage : Nat
deriving DecidableEq, Repr

end UsdStageCache

/-- Modelled from the spec: the cache state — the entry store plus the
identifier allocator.  The allocator is the strictly monotonic policy the
spec recommends: `nextId` starts at `0` and is never reused, so it never
collides with a live entry's id and never mints the invalid `-1`.
(`Usd_StageCacheImpl` is not in the sources at hand.) -/
structure UsdStageCache where
  entries : List UsdStageCache.Entry
  nextId : Int
deriving DecidableEq, Repr

namespace UsdStageCache

/-- Modelled from the spec: the default constructor — an empty cache. -/
def emptyCache : UsdStageCache := ⟨[], 0⟩

/-- `Size()`: the number of entries. -/
def Size (c : UsdStageCache) : Nat := c.entries.length

/-- `IsEmpty()`: `return Size() == 0;` (inline in the header). -/
def IsEmpty (c : UsdStageCache) : Bool := c.Size = 0

/-- Modelled from the spec: `GetId(stage)` — the id of the entry holding
this scene handle, or the invalid id when the handle is not present
(by-handle-identity lookup). -/
def GetId (c : UsdStageCache) (stage : Nat) : Id :=
  match c.entries.find? (fun e => e.stage = stage) with
  | some e => e.id
  | none => Id.mkDefault

/-- Modelled from the spec: `Find(id)` — `none` if `id` is invalid or no
entry with this id is present, otherwise the entry's scene handle. -/
def Find (c : UsdStageCache) (id : Id) : Option Nat :=
  if id.IsValid then (c.entries.find? (fun e => e.id = id)).map Entry.stage
  else none

/-- `Contains(Id id)`: `return Find(id);` (inline in the header). -/
def ContainsId (c : UsdStageCache) (id : Id) : Bool := (c.Find id).isSome

/-- `Contains(stage)`: `return static_cast<bool>(GetId(stage));` (inline in
the header). -/
def ContainsStage (c : UsdStageCache) (stage : Nat) : Bool := (c.GetId stage).IsValid

/-- Modelled from the spec: `Insert(handle, key)` — idempotent by handle
identity: if the handle is already present return its existing id and leave
the store untouched (the supplied key is ignored); otherwise allocate the
next id, append the entry, and advance the allocator. -/
def Insert (c : UsdStageCache) (stage : Nat) (key : CompoundKey) : Id × UsdStageCache :=
  match c.entries.find? (fun e => e.stage = stage) with
  | some e => (e.id, c)
  | none =>
    (⟨c.nextId⟩, ⟨c.entries ++ [⟨⟨c.nextId⟩, key, stage⟩], c.nextId + 1⟩)

/-- Modelled from the spec: `Erase(id)` — `true` and removal of the entry
with this id when present; `false` and no state change when `id` is invalid
or absent. -/
def Erase (c : UsdStageCache) (id : Id) : Bool × UsdStageCache :=
  if c.entries.any (fun e => e.id = id) then
    (true, ⟨c.entries.filter (fun e => ¬ e.id = id), c.nextId⟩)
  else
    (false, c)

/-- Modelled from the spec: `FindAllMatching(rootLayer, sessionLayer)` —
every entry whose key matches on both specified components (the resolver
context is unspecified and acts as a wildcard); root and session compare by
handle identity, a present-vs-absent session being a non-match. -/
def FindAllMatching (c : UsdStageCache) (rootLayer : Nat) (sessionLayer : Option Nat) :
    List Nat :=
  (c.entries.filter
    (fun e => decide (e.key.rootLayer = rootLayer ∧ e.key.sessionLayer = sessionLayer))).map
    Entry.stage

/-- Modelled from the spec: `Clear()` — remove all entries, leaving the
cache equivalent to a freshly constructed one. -/
def Clear (_c : UsdStageCache) : UsdStageCache := emptyCache

/-- Modelled from the spec: copy-construction / copy-assignment — duplicate
the full entry store (ids, keys, and the shared scene handles) into an
independent store; no entry is re-minted and no new scene object is
created. -/
def copyCache (c : UsdStageCache) : UsdStageCache :=
  ⟨c.entries.map (fun e => ⟨e.id, e.key, e.stage⟩), c.nextId⟩

/-- Well-formedness of a cache state, maintained by every operation: ids
are pairwise distinct, handle identities are pairwise distinct, and every
live id is a valid non-negative value below the allocator's `nextId`. -/
def WF (c : UsdStageCache) : Prop :=
  0 ≤ c.nextId ∧
    (c.entries.map Entry.id).Nodup ∧ (c.entries.map Entry.stage).Nodup ∧
    ∀ e ∈ c.entries, 0 ≤ e.id.ToLongInt ∧ e.id.ToLongInt < c.nextId

instance (c : UsdStageCache) : Decidable c.WF := by
  unfold WF; infer_instance

end UsdStageCache

/-! ### Decimal rendering / parsing round-trip -/

theorem digitVal_digitChar (k : Nat) (h : k < 10) : digitVal (digitChar k) = some k := by
  interval_cases k <;> decide

theorem digitChar_ne_minus (k : Nat) (h : k < 10) : digitChar k ≠ '-' := by
  interval_cases k <;> decide

theorem digitChar_ne_plus (k : Nat) (h : k < 10) : digitChar k ≠ '+' := by
  interval_cases k <;> decide

theorem natToCharsCore_append (fuel : Nat) :
    ∀ (n : Nat) (acc : List Char),
      natToCharsCore fuel n acc = natToCharsCore fuel n [] ++ acc := by
  induction fuel with
  | zero => intro n acc; simp [natToCharsCore]
  | succ fuel ih =>
    intro n acc
    by_cases h : n < 10
    · simp [natToCharsCore, h]
    · simp only [natToCharsCore, if_neg h]
      rw [ih (n / 10) (digitChar (n % 10) :: acc), ih (n / 10) [digitChar (n % 10)]]
      simp

theorem parseDigitsAux_append (xs : List Char) :
    ∀ (ys : List Char) (acc : Nat),
      parseDigitsAux (xs ++ ys) acc =
        (parseDigitsAux xs acc).bind (fun m => parseDigitsAux ys m) := by
  induction xs with
  | nil => intro ys acc; simp [parseDigitsAux]
  | cons c cs ih =>
    intro ys acc
    cases h : digitVal c with
    | some d => simp [parseDigitsAux, h, ih]
    | none => simp [parseDigitsAux, h]

theorem parseDigitsAux_natToCharsCore (fuel : Nat) :
    ∀ n, n < 10 ^ fuel → parseDigitsAux (natToCharsCore fuel n []) 0 = some n := by
  induction fuel with
  | zero =>
    intro n hn
    interval_cases n
    simp [natToCharsCore, parseDigitsAux]
  | succ fuel ih =>
    intro n hn
    by_cases h : n < 10
    · simp [natToCharsCore, h, parseDigitsAux, digitVal_digitChar n h]
    · have hd : n / 10 < 10 ^ fuel := by
        rw [Nat.div_lt_iff_lt_mul (by norm_num)]
        calc n < 10 ^ (fuel + 1) := hn
          _ = 10 ^ fuel * 10 := by ring
      simp only [natToCharsCore, if_neg h]
      rw [natToCharsCore_append, parseDigitsAux_append, ih (n / 10) hd]
      simp [parseDigitsAux, digitVal_digitChar (n % 10) (Nat.mod_lt n (by norm_num))]
      omega

theorem natToCharsCore_head (fuel : Nat) :
    ∀ (n : Nat) (acc : List Char),
      ∃ d rest, natToCharsCore (fuel + 1) n acc = digitChar d :: rest ∧ d < 10 := by
  induction fuel with
  | zero =>
    intro n acc
    by_cases h : n < 10
    · exact ⟨n, acc, by simp [natToCharsCore, h], h⟩
    · exact ⟨n % 10, acc, by simp [natToCharsCore, h], Nat.mod_lt n (by norm_num)⟩
  | succ fuel ih =>
    intro n acc
    by_cases h : n < 10
    · exact ⟨n, acc, by simp [natToCharsCore, h], h⟩
    · obtain ⟨d, rest, he, hd⟩ := ih (n / 10) (digitChar (n % 10) :: acc)
      exact ⟨d, rest, by simp only [natToCharsCore, if_neg h]; exact he, hd⟩

theorem natToChars_head (n : Nat) :
    ∃ d rest, natToChars n = digitChar d :: rest ∧ d < 10 :=
  natToCharsCore_head n n []

theorem parseNat_natToChars (n : Nat) : parseNat (natToChars n) = some n := by
  obtain ⟨d, rest, he, hd⟩ := natToChars_head n
  have hne : (natToChars n).isEmpty = false := by rw [he]; rfl
  rw [parseNat, hne]
  simp only [Bool.false_eq_true, if_false]
  have hfuel : n < 10 ^ (n + 1) := by
    calc n < 10 ^ n := Nat.lt_pow_self (by norm_num) n
      _ ≤ 10 ^ (n + 1) := Nat.pow_le_pow_right (by norm_num) (Nat.le_succ n)
  exact parseDigitsAux_natToCharsCore (n + 1) n hfuel

theorem splitSign_digit (d : Nat) (hd : d < 10) (rest : List Char) :
    splitSign (digitChar d :: rest) = (false, digitChar d :: rest) := by
  simp [splitSign, digitChar_ne_minus d hd, digitChar_ne_plus d hd]

theorem lexicalCastLong_intToChars (v : Int)
    (h1 : longMin ≤ v) (h2 : v ≤ longMax) :
    lexicalCastLong (intToChars v) = some v := by
  by_cases hv : v < 0
  · have habs : ((v.natAbs : Int)) = -v := Int.ofNat_natAbs_of_nonpos (le_of_lt hv)
    have hsplit : splitSign (intToChars v) = (true, natToChars v.natAbs) := by
      rw [intToChars, if_pos hv]; simp [splitSign]
    rw [lexicalCastLong, hsplit]
    simp only [parseNat_natToChars, Option.some_bind, rangeCheck, signedVal, if_true, habs,
      neg_neg]
    rw [if_pos ⟨h1, h2⟩]
  · have hnn : (0 : Int) ≤ v := le_of_not_lt hv
    obtain ⟨d, rest, he, hd⟩ := natToChars_head v.toNat
    have hsplit : splitSign (intToChars v) = (false, natToChars v.toNat) := by
      rw [intToChars, if_neg hv, he, splitSign_digit d hd rest]
    rw [lexicalCastLong, hsplit]
    simp only [parseNat_natToChars, Option.some_bind, rangeCheck, signedVal,
      Bool.false_eq_true, if_false, Int.toNat_of_nonneg hnn]
    rw [if_pos ⟨h1, h2⟩]

/-! ### Characterization of well-formed decimal strings -/

/-- The numeric value of an all-digit character list (most significant
first). -/
def digitsVal (cs : List Char) : Nat :=
  cs.foldl (fun a c => a * 10 + (digitVal c).getD 0) 0

/-- `v` fits in `long int`. -/
def InLongRange (v : Int) : Prop := longMin ≤ v ∧ v ≤ longMax

/-- `cs` is a decimal representation of the integer `v`: an optional sign
followed by a non-empty run of decimal digits whose signed value is `v`. -/
def IsDecimalRepr (cs : List Char) (v : Int) : Prop :=
  (splitSign cs).2 ≠ [] ∧ (∀ c ∈ (splitSign cs).2, (digitVal c).isSome) ∧
    v = signedVal (splitSign cs).1 (digitsVal (splitSign cs).2)

theorem parseDigitsAux_some (cs : List Char) :
    ∀ (acc m : Nat), parseDigitsAux cs acc = some m →
      (∀ c ∈ cs, (digitVal c).isSome) ∧
        m = cs.foldl (fun a c => a * 10 + (digitVal c).getD 0) acc := by
  induction cs with
  | nil =>
    intro acc m h
    simp [parseDigitsAux] at h
    simp [h]
  | cons c cs ih =>
    intro acc m h
    cases hd : digitVal c with
    | none => simp [parseDigitsAux, hd] at h
    | some d =>
      rw [parseDigitsAux, hd] at h
      obtain ⟨hall, hval⟩ := ih (acc * 10 + d) m h
      refine ⟨?_, ?_⟩
      · intro x hx
        rcases List.mem_cons.mp hx with hx | hx
        · rw [hx, hd]; rfl
        · exact hall x hx
      · simpa [hd] using hval

theorem parseNat_some (cs : List Char) (n : Nat) (h : parseNat cs = some n) :
    cs ≠ [] ∧ (∀ c ∈ cs, (digitVal c).isSome) ∧ n = digitsVal cs := by
  rw [parseNat] at h
  by_cases he : cs.isEmpty
  · rw [if_pos he] at h; exact absurd h (by simp)
  · rw [if_neg he] at h
    obtain ⟨hall, hval⟩ := parseDigitsAux_some cs 0 n h
    exact ⟨by simpa [List.isEmpty_iff] using he, hall, hval⟩

theorem rangeCheck_some (v w : Int) (h : rangeCheck v = some w) :
    w = v ∧ InLongRange v := by
  rw [rangeCheck] at h
  by_cases hr : longMin ≤ v ∧ v ≤ longMax
  · rw [if_pos hr] at h
    exact ⟨by simpa using h.symm, hr⟩
  · rw [if_neg hr] at h; exact absurd h (by simp)

theorem lexicalCastLong_some (cs : List Char) (v : Int)
    (h : lexicalCastLong cs = some v) : IsDecimalRepr cs v ∧ InLongRange v := by
  rw [lexicalCastLong] at h
  cases hp : parseNat (splitSign cs).2 with
  | none => rw [hp] at h; exact absurd h (by simp)
  | some n =>
    rw [hp, Option.some_bind] at h
    obtain ⟨hw, hr⟩ := rangeCheck_some _ _ h
    obtain ⟨hne, hall, hval⟩ := parseNat_some _ _ hp
    exact ⟨⟨hne, hall, by rw [hw, hval]⟩, by rwa [hw]⟩

/-! ### Cache helper lemmas -/

namespace UsdStageCache

theorem WF_emptyCache : emptyCache.WF := by
  refine ⟨le_refl 0, ?_, ?_, ?_⟩ <;> simp [emptyCache]

theorem find?_eq_none_of_absent (l : List Entry) (stage : Nat)
    (h : ∀ e ∈ l, e.stage ≠ stage) :
    l.find? (fun e => e.stage = stage) = none := by
  rw [List.find?_eq_none]
  intro e he
  simpa using h e he

theorem Insert_of_absent (c : UsdStageCache) (stage : Nat) (key : CompoundKey)
    (h : ∀ e ∈ c.entries, e.stage ≠ stage) :
    c.Insert stage key =
      (⟨c.nextId⟩, ⟨c.entries ++ [⟨⟨c.nextId⟩, key, stage⟩], c.nextId + 1⟩) := by
  rw [Insert, find?_eq_none_of_absent c.entries stage h]

theorem WF_Insert (c : UsdStageCache) (stage : Nat) (key : CompoundKey)
    (hwf : c.WF) : (c.Insert stage key).2.WF := by
  obtain ⟨hnn, hid, hst, hbound⟩ := hwf
  cases hf : c.entries.find? (fun e => e.stage = stage) with
  | some e => simpa [Insert, hf] using ⟨hnn, hid, hst, hbound⟩
  | none =>
    have habs : ∀ e ∈ c.entries, e.stage ≠ stage := by
      intro e he
      have := List.find?_eq_none.mp hf e he
      simpa using this
    rw [Insert_of_absent c stage key habs]
    dsimp only [WF]
    refine ⟨by omega, ?_, ?_, ?_⟩
    · rw [List.map_append, List.nodup_append]
      refine ⟨hid, List.nodup_singleton _, ?_⟩
      intro a ha hb
      simp only [List.map_cons, List.map_nil, List.mem_singleton] at hb
      obtain ⟨e, he, hei⟩ := List.mem_map.mp ha
      have hlt := (hbound e he).2
      rw [hei, hb] at hlt
      simp only [Id.ToLongInt] at hlt
      exact absurd hlt (lt_irrefl _)
    · rw [List.map_append, List.nodup_append]
      refine ⟨hst, List.nodup_singleton _, ?_⟩
      intro a ha hb
      simp only [List.map_cons, List.map_nil, List.mem_singleton] at hb
      obtain ⟨e, he, hei⟩ := List.mem_map.mp ha
      exact habs e he (hei.trans hb)
    · intro e he
      rcases List.mem_append.mp he with he | he
      · have hb := hbound e he
        exact ⟨hb.1, by omega⟩
      · simp only [List.mem_singleton] at he
        rw [he]
        simp only [Id.ToLongInt]
        omega

theorem WF_Erase (c : UsdStageCache) (id : Id) (hwf : c.WF) :
    (c.Erase id).2.WF := by
  obtain ⟨hnn, hid, hst, hbound⟩ := hwf
  rw [Erase]
  by_cases h : c.entries.any (fun e => e.id = id) = true
  · rw [if_pos h]
    refine ⟨hnn, ?_, ?_, ?_⟩
    · exact hid.sublist ((List.filter_sublist c.entries).map Entry.id)
    · exact hst.sublist ((List.filter_sublist c.entries).map Entry.stage)
    · intro e he
      exact hbound e (List.mem_of_mem_filter he)
  · rw [if_neg h]
    exact ⟨hnn, hid, hst, hbound⟩

theorem filter_ne_id_length (l : List Entry) (id : Id)
    (hnd : (l.map Entry.id).Nodup) (hex : ∃ e ∈ l, e.id = id) :
    (l.filter (fun e => ¬ e.id = id)).length + 1 = l.length := by
  induction l with
  | nil => simp at hex
  | cons a l ih =>
    rw [List.map_cons, List.nodup_cons] at hnd
    by_cases ha : a.id = id
    · have hrest : l.filter (fun e => ¬ e.id = id) = l := by
        rw [List.filter_eq_self]
        intro e he
        have hne : ¬ e.id = id := by
          intro hh
          apply hnd.1
          rw [ha, ← hh]
          exact List.mem_map_of_mem Entry.id he
        simpa using hne
      rw [List.filter_cons, if_neg (by simp [ha]), hrest, List.length_cons]
    · have hex2 : ∃ e ∈ l, e.id = id := by
        obtain ⟨e, he, heid⟩ := hex
        rcases List.mem_cons.mp he with rfl | he2
        · exact absurd heid ha
        · exact ⟨e, he2, heid⟩
      have hrec := ih hnd.2 hex2
      simp only [List.filter_cons, List.length_cons]
      rw [if_pos (by simpa using ha)]
      simp only [List.length_cons]
      omega

theorem any_filter_ne_id (l : List Entry) (id : Id) :
    (l.filter (fun e => ¬ e.id = id)).any (fun e => e.id = id) = false := by
  rw [Bool.eq_false_iff]
  intro h
  obtain ⟨e, he, hid⟩ := List.any_eq_true.mp h
  have := List.of_mem_filter he
  simp only [decide_not, Bool.not_eq_true', decide_eq_false_iff_not] at this
  exact this (by simpa using hid)

end UsdStageCache

/-! ### Claims about `UsdStageCache::Id` -/

/-- C3: for every valid identifier `x` (whose wrapped value lies in the
`long int` range, as it always does in the code), the exact round-trips
`Id::FromLongInt(x.ToLongInt()) == x` and `Id::FromString(x.ToString()) == x`
both hold. -/
theorem c3_id_roundTrip (x : UsdStageCache.Id) (hv : x.IsValid)
    (h1 : longMin ≤ x.ToLongInt) (h2 : x.ToLongInt ≤ longMax) :
    UsdStageCache.Id.FromLongInt x.ToLongInt = x ∧
      UsdStageCache.Id.FromString x.ToString = Except.ok x := by
  refine ⟨rfl, ?_⟩
  have h := lexicalCastLong_intToChars x.ToLongInt h1 h2
  simp only [UsdStageCache.Id.FromString, UsdStageCache.Id.ToString]
  rw [h]
  rfl

theorem c3_id_roundTrip_witness :
    UsdStageCache.Id.FromLongInt (UsdStageCache.Id.FromLongInt 42).ToLongInt =
        UsdStageCache.Id.FromLongInt 42 ∧
      UsdStageCache.Id.FromString (UsdStageCache.Id.FromLongInt 42).ToString =
        Except.ok (UsdStageCache.Id.FromLongInt 42) :=
  c3_id_roundTrip (UsdStageCache.Id.FromLongInt 42) (by decide) (by decide) (by decide)

/-- C10: the integer and string conversions are exact for every `Id`
including the invalid sentinel: `FromLongInt(v).ToLongInt() == v` for every
long integer `v`, `FromLongInt(-1)` is the invalid default-constructed id,
and both round-trips hold for the sentinel as well. -/
theorem c10_conversions_exact :
    (∀ v : Int, (UsdStageCache.Id.FromLongInt v).ToLongInt = v) ∧
      UsdStageCache.Id.FromLongInt (-1) = UsdStageCache.Id.mkDefault ∧
      ¬ (UsdStageCache.Id.FromLongInt (-1)).IsValid ∧
      UsdStageCache.Id.FromLongInt UsdStageCache.Id.mkDefault.ToLongInt =
        UsdStageCache.Id.mkDefault ∧
      UsdStageCache.Id.FromString UsdStageCache.Id.mkDefault.ToString =
        Except.ok UsdStageCache.Id.mkDefault :=
  ⟨fun _ => rfl, rfl, by decide, rfl, rfl⟩

theorem c10_conversions_exact_witness :
    (UsdStageCache.Id.FromLongInt 7).ToLongInt = 7 :=
  c10_conversions_exact.1 7

/-- C9: equality, ordering, hashing and validity of `Id` are all defined
structurally from the single wrapped integer: `==` agrees with equality of
`ToLongInt` (and with structural equality), `<` agrees with `<` on
`ToLongInt` and is a strict total order whose boost-derived `>`, `<=`, `>=`
are consistent with it, `hash_value` is a function of `ToLongInt` alone,
and `IsValid` holds iff the wrapped value differs from `-1`, the
default-constructed id wrapping exactly `-1`. -/
theorem c9_id_relations_structural :
    (∀ a b : UsdStageCache.Id,
      (a.eqOp b ↔ a.ToLongInt = b.ToLongInt) ∧ (a.eqOp b ↔ a = b)) ∧
      (∀ a b : UsdStageCache.Id, a.ltOp b ↔ a.ToLongInt < b.ToLongInt) ∧
      (∀ a : UsdStageCache.Id, ¬ a.ltOp a) ∧
      (∀ a b c : UsdStageCache.Id, a.ltOp b → b.ltOp c → a.ltOp c) ∧
      (∀ a b : UsdStageCache.Id, a.ltOp b ∨ a.eqOp b ∨ b.ltOp a) ∧
      (∀ a b : UsdStageCache.Id,
        (a.gtOp b ↔ b.ToLongInt < a.ToLongInt) ∧
          (a.leOp b ↔ a.ToLongInt ≤ b.ToLongInt) ∧
          (a.geOp b ↔ b.ToLongInt ≤ a.ToLongInt)) ∧
      (∀ a : UsdStageCache.Id,
        a.hash_value = UsdStageCache.Id.sizeTNot a.ToLongInt) ∧
      (∀ a b : UsdStageCache.Id, a.eqOp b → a.hash_value = b.hash_value) ∧
      (∀ a : UsdStageCache.Id, a.IsValid ↔ a.ToLongInt ≠ -1) ∧
      UsdStageCache.Id.mkDefault.ToLongInt = -1 ∧
      ¬ UsdStageCache.Id.mkDefault.IsValid := by
  refine ⟨?_, ?_, ?_, ?_, ?_, ?_, ?_, ?_, ?_, rfl, by decide⟩
  · intro a b
    refine ⟨Iff.rfl, ⟨fun h => ?_, fun h => by subst h; exact rfl⟩⟩
    · cases a; cases b
      simpa [UsdStageCache.Id.eqOp, UsdStageCache.Id.ToLongInt] using h
  · intro a b; exact Iff.rfl
  · intro a; exact lt_irrefl a.ToLongInt
  · intro a b c hab hbc; exact lt_trans hab hbc
  · intro a b; exact Int.lt_trichotomy a.ToLongInt b.ToLongInt
  · intro a b
    exact ⟨Iff.rfl, not_lt, not_lt⟩
  · intro a; rfl
  · intro a b h
    rw [UsdStageCache.Id.hash_value, UsdStageCache.Id.hash_value, h]
  · intro a; exact Iff.rfl

theorem c9_id_relations_structural_witness :
    UsdStageCache.Id.ltOp ⟨0⟩ ⟨2⟩ ∧
      (UsdStageCache.Id.hash_value ⟨5⟩ = UsdStageCache.Id.hash_value ⟨5⟩) :=
  ⟨c9_id_relations_structural.2.2.2.1 ⟨0⟩ ⟨1⟩ ⟨2⟩ (by decide) (by decide),
    c9_id_relations_structural.2.2.2.2.2.2.2.1 ⟨5⟩ ⟨5⟩ (by decide)⟩

/-- C7: for every malformed input string — one that is not an (optionally
signed) decimal representation of an integer in the `long int` range —
`Id::FromString` fails with the parse error, surfaced synchronously, and
never returns a valid-looking identifier. -/
theorem c7_fromString_malformed (s : String)
    (hmal : ¬ ∃ v : Int, IsDecimalRepr s.data v ∧ InLongRange v) :
    UsdStageCache.Id.FromString s = Except.error ParseError.badLexicalCast ∧
      ∀ id : UsdStageCache.Id, UsdStageCache.Id.FromString s ≠ Except.ok id := by
  cases hc : lexicalCastLong s.data with
  | some v => exact absurd ⟨v, lexicalCastLong_some s.data v hc⟩ hmal
  | none =>
    constructor
    · simp [UsdStageCache.Id.FromString, hc]
    · intro id h
      simp [UsdStageCache.Id.FromString, hc] at h

theorem c7_fromString_malformed_witness :
    (¬ ∃ v : Int, IsDecimalRepr ("not-a-number".data) v ∧ InLongRange v) ∧
      UsdStageCache.Id.FromString "not-a-number" =
        Except.error ParseError.badLexicalCast := by
  have hmal : ¬ ∃ v : Int, IsDecimalRepr ("not-a-number".data) v ∧ InLongRange v := by
    rintro ⟨v, ⟨hne, hall, hval⟩, hr⟩
    have hn : ('n' : Char) ∈ (splitSign ("not-a-number".data)).2 := by decide
    have hsome := hall 'n' hn
    simp [digitVal] at hsome
  exact ⟨hmal, (c7_fromString_malformed "not-a-number" hmal).1⟩

namespace UsdStageCache

theorem ContainsId_eq_true_iff (c : UsdStageCache) (id : Id) :
    c.ContainsId id = true ↔ id.IsValid ∧ ∃ e ∈ c.entries, e.id = id := by
  rw [ContainsId, Find]
  by_cases hv : id.IsValid
  · rw [if_pos hv]
    simp only [hv, true_and]
    constructor
    · intro h
      obtain ⟨a, ha⟩ := Option.isSome_iff_exists.mp h
      obtain ⟨e, he⟩ := Option.map_eq_some'.mp ha
      exact ⟨e, List.mem_of_find?_eq_some he.1, by simpa using List.find?_some he.1⟩
    · rintro ⟨e, he, hid⟩
      cases hf : c.entries.find? (fun x => x.id = id) with
      | some a => simp [hf]
      | none =>
        have := List.find?_eq_none.mp hf e he
        simp [hid] at this
  · rw [if_neg hv]
    simp [hv]

theorem Insert_found (c : UsdStageCache) (stage : Nat) (k : CompoundKey)
    (e : Entry) (h : c.entries.find? (fun x => x.stage = stage) = some e) :
    c.Insert stage k = (e.id, c) := by
  rw [Insert, h]

theorem find?_append_self (l : List Entry) (stage : Nat) (e : Entry)
    (hnone : l.find? (fun x => x.stage = stage) = none) (he : e.stage = stage) :
    (l ++ [e]).find? (fun x => x.stage = stage) = some e := by
  rw [List.find?_append, hnone]
  simp [List.find?, he]

theorem ContainsId_after_Erase (c : UsdStageCache) (id : Id)
    (h : c.ContainsId id = true) : ((c.Erase id).2).ContainsId id = false := by
  obtain ⟨hv, e, he, hid⟩ := (ContainsId_eq_true_iff c id).mp h
  have hany : c.entries.any (fun x => x.id = id) = true :=
    List.any_eq_true.mpr ⟨e, he, by simpa using hid⟩
  rw [Erase, if_pos hany]
  rw [ContainsId, Find, if_pos hv]
  have hnone : (c.entries.filter (fun x => ¬ x.id = id)).find? (fun x => x.id = id)
      = none := by
    rw [List.find?_eq_none]
    intro x hx
    have := List.of_mem_filter hx
    simpa using this
  simp [hnone]

end UsdStageCache

/-! ### Claims about the cache operations (modelled from the spec) -/

/-- C6: a lookup with an invalid or absent id yields "not found" and never
an error: `Find(id)` is `none` exactly when the id is invalid or no entry
carries it, `Contains(id)` holds iff `Find(id)` is non-null, and
`Contains(stage)` holds iff `GetId(stage)` is a valid id. -/
theorem c6_lookup_not_found (c : UsdStageCache) (id : UsdStageCache.Id)
    (stage : Nat) :
    (c.Find id = none ↔ (¬ id.IsValid ∨ ∀ e ∈ c.entries, e.id ≠ id)) ∧
      (c.ContainsId id = true ↔ c.Find id ≠ none) ∧
      (c.ContainsStage stage = true ↔ (c.GetId stage).IsValid) := by
  refine ⟨?_, ?_, ?_⟩
  · by_cases hv : id.IsValid
    · rw [UsdStageCache.Find, if_pos hv]
      simp [Option.map_eq_none', List.find?_eq_none, hv]
    · rw [UsdStageCache.Find, if_neg hv]
      simp [hv]
  · rw [UsdStageCache.ContainsId]
    exact Option.isSome_iff_ne_none
  · rw [UsdStageCache.ContainsStage]
    simp

theorem c6_lookup_not_found_witness :
    UsdStageCache.emptyCache.Find UsdStageCache.Id.mkDefault = none ↔
      (¬ UsdStageCache.Id.mkDefault.IsValid ∨
        ∀ e ∈ UsdStageCache.emptyCache.entries, e.id ≠ UsdStageCache.Id.mkDefault) :=
  (c6_lookup_not_found UsdStageCache.emptyCache UsdStageCache.Id.mkDefault 0).1

/-- C8: after `Clear()` the cache is the freshly default-constructed cache,
so `IsEmpty()` holds and `Size()` is zero; and in every cache state
`IsEmpty()` holds iff `Size() == 0`. -/
theorem c8_clear_postcondition (c : UsdStageCache) :
    (c.Clear.IsEmpty = true ∧ c.Clear.Size = 0 ∧
        c.Clear = UsdStageCache.emptyCache) ∧
      ∀ c2 : UsdStageCache, c2.IsEmpty = true ↔ c2.Size = 0 := by
  refine ⟨⟨rfl, rfl, rfl⟩, ?_⟩
  intro c2
  rw [UsdStageCache.IsEmpty]
  simp

theorem c8_clear_postcondition_witness :
    UsdStageCache.emptyCache.Clear.IsEmpty = true :=
  (c8_clear_postcondition UsdStageCache.emptyCache).1.1

/-- C1 counterexample: on a cache state that already contains the handle
(the cache produced by one prior `Insert` of handle `0`), calling `Insert`
twice more with that same handle leaves `Size()` unchanged, so "`Size()`
increases by exactly one across the two calls" fails for that state. -/
theorem c1_insert_size_counterexample :
    ¬ ((((UsdStageCache.emptyCache.Insert 0 ⟨0, none, none⟩).2.Insert 0
            ⟨0, none, none⟩).2.Insert 0 ⟨0, none, none⟩).2.Size =
        (UsdStageCache.emptyCache.Insert 0 ⟨0, none, none⟩).2.Size + 1) := by
  decide

/-- C1 (amended): for every cache state, `Insert(h, k)` then `Insert(h, k2)`
returns the same `Id` both times and the repeat insert leaves the cache —
hence the existing entry, its id and its key — untouched; provided the
handle was not already present before the first call, `Size()` increases by
exactly one across the two calls. -/
theorem c1_insert_idempotent (c : UsdStageCache) (stage : Nat)
    (k k2 : UsdStageCache.CompoundKey) :
    (((c.Insert stage k).2.Insert stage k2).1 = (c.Insert stage k).1 ∧
        ((c.Insert stage k).2.Insert stage k2).2 = (c.Insert stage k).2) ∧
      ((∀ e ∈ c.entries, e.stage ≠ stage) →
        ((c.Insert stage k).2.Insert stage k2).2.Size = c.Size + 1) := by
  cases hf : c.entries.find? (fun e => e.stage = stage) with
  | some e =>
    have h1 : c.Insert stage k = (e.id, c) := UsdStageCache.Insert_found c stage k e hf
    have h2 : c.Insert stage k2 = (e.id, c) := UsdStageCache.Insert_found c stage k2 e hf
    refine ⟨?_, ?_⟩
    · rw [h1]
      dsimp only
      rw [h2]
      exact ⟨rfl, rfl⟩
    · intro habs
      exfalso
      have hmem := List.mem_of_find?_eq_some hf
      have hp := List.find?_some hf
      simp only [decide_eq_true_eq] at hp
      exact habs e hmem hp
  | none =>
    have habs : ∀ e ∈ c.entries, e.stage ≠ stage := by
      intro e he
      have hne := List.find?_eq_none.mp hf e he
      simpa using hne
    have h1 := UsdStageCache.Insert_of_absent c stage k habs
    have hf2 := UsdStageCache.find?_append_self c.entries stage
      ⟨⟨c.nextId⟩, k, stage⟩ hf rfl
    have h2 := UsdStageCache.Insert_found
      ⟨c.entries ++ [⟨⟨c.nextId⟩, k, stage⟩], c.nextId + 1⟩ stage k2
      ⟨⟨c.nextId⟩, k, stage⟩ hf2
    refine ⟨⟨?_, ?_⟩, fun _ => ?_⟩
    · rw [h1]
      dsimp only
      rw [h2]
    · rw [h1]
      dsimp only
      rw [h2]
    · rw [h1]
      dsimp only
      rw [h2]
      simp [UsdStageCache.Size]

theorem c1_insert_idempotent_witness :
    (∀ e ∈ UsdStageCache.emptyCache.entries, e.stage ≠ 0) ∧
      ((UsdStageCache.emptyCache.Insert 0 ⟨1, none, none⟩).2.Insert 0
          ⟨2, none, none⟩).2.Size = UsdStageCache.emptyCache.Size + 1 :=
  ⟨by decide,
    (c1_insert_idempotent UsdStageCache.emptyCache 0 ⟨1, none, none⟩
      ⟨2, none, none⟩).2 (by decide)⟩

/-- C4: `Erase(id)` on a cache containing an entry with that id returns
true and decreases `Size()` by exactly one; with an invalid id or an id not
present it returns false and leaves the cache unchanged; hence erasing the
same id twice returns true then false, the second call changing nothing. -/
theorem c4_erase_spec (c : UsdStageCache) (id : UsdStageCache.Id)
    (hwf : c.WF) :
    ((∃ e ∈ c.entries, e.id = id) →
        (c.Erase id).1 = true ∧ (c.Erase id).2.Size + 1 = c.Size) ∧
      ((¬ ∃ e ∈ c.entries, e.id = id) →
        (c.Erase id).1 = false ∧ (c.Erase id).2 = c) ∧
      (¬ id.IsValid → (c.Erase id).1 = false ∧ (c.Erase id).2 = c) ∧
      ((c.Erase id).2.Erase id).1 = false ∧
      ((c.Erase id).2.Erase id).2 = (c.Erase id).2 := by
  have habsent : (¬ ∃ e ∈ c.entries, e.id = id) →
      (c.Erase id).1 = false ∧ (c.Erase id).2 = c := by
    intro hne
    have hany : c.entries.any (fun e => e.id = id) = false := by
      rw [Bool.eq_false_iff]
      intro ha
      obtain ⟨e, he, hid⟩ := List.any_eq_true.mp ha
      exact hne ⟨e, he, by simpa using hid⟩
    rw [UsdStageCache.Erase, hany]
    exact ⟨rfl, rfl⟩
  refine ⟨?_, habsent, ?_, ?_⟩
  · intro hex
    have hany : c.entries.any (fun e => e.id = id) = true := by
      obtain ⟨e, he, hid⟩ := hex
      exact List.any_eq_true.mpr ⟨e, he, by simpa using hid⟩
    rw [UsdStageCache.Erase, hany]
    refine ⟨rfl, ?_⟩
    show (c.entries.filter (fun e => ¬ e.id = id)).length + 1 = c.entries.length
    exact UsdStageCache.filter_ne_id_length c.entries id hwf.2.1 hex
  · intro hv
    apply habsent
    rintro ⟨e, he, hid⟩
    have hpos := (hwf.2.2.2 e he).1
    have : id._value = -1 := not_not.mp hv
    rw [hid] at hpos
    simp only [UsdStageCache.Id.ToLongInt] at hpos
    omega
  · by_cases hany : c.entries.any (fun e => e.id = id) = true
    · have h1 : c.Erase id = (true, ⟨c.entries.filter (fun e => ¬ e.id = id),
          c.nextId⟩) := by
        rw [UsdStageCache.Erase, hany]
        rfl
      rw [h1]
      dsimp only
      rw [UsdStageCache.Erase]
      dsimp only
      rw [UsdStageCache.any_filter_ne_id]
      exact ⟨rfl, rfl⟩
    · have hany2 : c.entries.any (fun e => e.id = id) = false :=
        Bool.eq_false_iff.mpr hany
      have h1 : c.Erase id = (false, c) := by
        rw [UsdStageCache.Erase, hany2]
        rfl
      rw [h1]
      dsimp only
      rw [h1]
      exact ⟨rfl, rfl⟩

theorem c4_erase_spec_witness :
    ((UsdStageCache.emptyCache.Insert 3 ⟨0, none, none⟩).2.WF) ∧
      (((UsdStageCache.emptyCache.Insert 3 ⟨0, none, none⟩).2.Erase
          (UsdStageCache.emptyCache.Insert 3 ⟨0, none, none⟩).1).1 = true ∧
        ((UsdStageCache.emptyCache.Insert 3 ⟨0, none, none⟩).2.Erase
            (UsdStageCache.emptyCache.Insert 3 ⟨0, none, none⟩).1).2.Size + 1 =
          (UsdStageCache.emptyCache.Insert 3 ⟨0, none, none⟩).2.Size) :=
  ⟨by decide,
    (c4_erase_spec (UsdStageCache.emptyCache.Insert 3 ⟨0, none, none⟩).2
      (UsdStageCache.emptyCache.Insert 3 ⟨0, none, none⟩).1 (by decide)).1
      (by decide)⟩

/-- C2: `FindAllMatching(root, session)` returns exactly the set of entries
whose key's root and session both equal the queried components, with no
duplicate handles, the result depending only on the set of entries (its
membership is invariant under any permutation of the insertion history);
when nothing matches, the result is empty. -/
theorem c2_findAllMatching_complete (c : UsdStageCache) (root : Nat)
    (sess : Option Nat) (hwf : c.WF) :
    (c.FindAllMatching root sess).Nodup ∧
      (∀ h : Nat, h ∈ c.FindAllMatching root sess ↔
        ∃ e ∈ c.entries, e.stage = h ∧ e.key.rootLayer = root ∧
          e.key.sessionLayer = sess) ∧
      (∀ c2 : UsdStageCache, c.entries.Perm c2.entries →
        (c.FindAllMatching root sess).Perm (c2.FindAllMatching root sess)) ∧
      ((¬ ∃ e ∈ c.entries, e.key.rootLayer = root ∧ e.key.sessionLayer = sess) →
        c.FindAllMatching root sess = []) := by
  refine ⟨?_, ?_, ?_, ?_⟩
  · exact hwf.2.2.1.sublist
      ((List.filter_sublist c.entries).map UsdStageCache.Entry.stage)
  · intro h
    rw [UsdStageCache.FindAllMatching]
    simp only [List.mem_map, List.mem_filter, decide_eq_true_eq]
    constructor
    · rintro ⟨e, ⟨he, hr, hs⟩, hst⟩
      exact ⟨e, he, hst, hr, hs⟩
    · rintro ⟨e, he, hst, hr, hs⟩
      exact ⟨e, ⟨he, hr, hs⟩, hst⟩
  · intro c2 hp
    exact (hp.filter _).map _
  · intro hnone
    rw [UsdStageCache.FindAllMatching]
    have hnil : c.entries.filter
        (fun e => decide (e.key.rootLayer = root ∧ e.key.sessionLayer = sess)) = [] := by
      rw [List.filter_eq_nil_iff]
      intro e he
      simp only [decide_eq_true_eq]
      intro hc
      exact hnone ⟨e, he, hc⟩
    rw [hnil]
    rfl

theorem c2_findAllMatching_complete_witness :
    ((UsdStageCache.emptyCache.Insert 5 ⟨1, some 2, none⟩).2.WF) ∧
      (7 ∈ (UsdStageCache.emptyCache.Insert 5 ⟨1, some 2, none⟩).2.FindAllMatching 1
          (some 2) ↔
        ∃ e ∈ (UsdStageCache.emptyCache.Insert 5 ⟨1, some 2, none⟩).2.entries,
          e.stage = 7 ∧ e.key.rootLayer = 1 ∧ e.key.sessionLayer = some 2) :=
  ⟨by decide,
    (c2_findAllMatching_complete (UsdStageCache.emptyCache.Insert 5 ⟨1, some 2, none⟩).2
      1 (some 2) (by decide)).2.1 7⟩

/-- C5: copying a cache produces an independent entry store with the same
ids, keys and entries as the source, referencing exactly the scene handles
of the source (no new scene object identities appear), reporting the same
`Size()` and the same `GetId(handle)` for every handle; erasing an id from
the copy removes it from the copy while the source — a distinct value the
erase never touches — still contains it. -/
theorem c5_copy_independent (c : UsdStageCache) (id : UsdStageCache.Id) :
    (UsdStageCache.copyCache c).entries = c.entries ∧
      (UsdStageCache.copyCache c).Size = c.Size ∧
      (∀ h : Nat, (UsdStageCache.copyCache c).GetId h = c.GetId h) ∧
      (∀ e ∈ (UsdStageCache.copyCache c).entries,
        e.stage ∈ c.entries.map UsdStageCache.Entry.stage) ∧
      (c.ContainsId id = true →
        ((UsdStageCache.copyCache c).Erase id).2.ContainsId id = false ∧
          c.ContainsId id = true) := by
  have hent : (UsdStageCache.copyCache c).entries = c.entries := by
    rw [UsdStageCache.copyCache]
    exact List.map_id c.entries
  have hcopy : UsdStageCache.copyCache c = c := by
    cases c
    rw [UsdStageCache.copyCache]
    simp
  refine ⟨hent, ?_, ?_, ?_, ?_⟩
  · rw [UsdStageCache.Size, UsdStageCache.Size, hent]
  · intro h
    rw [UsdStageCache.GetId, UsdStageCache.GetId, hent]
  · intro e he
    rw [hent] at he
    exact List.mem_map_of_mem UsdStageCache.Entry.stage he
  · intro hc
    refine ⟨?_, hc⟩
    rw [hcopy]
    exact UsdStageCache.ContainsId_after_Erase c id hc

theorem c5_copy_independent_witness :
    ((UsdStageCache.emptyCache.Insert 4 ⟨1, none, none⟩).2.ContainsId
        (UsdStageCache.emptyCache.Insert 4 ⟨1, none, none⟩).1 = true) ∧
      (((UsdStageCache.copyCache
            (UsdStageCache.emptyCache.Insert 4 ⟨1, none, none⟩).2).Erase
          (UsdStageCache.emptyCache.Insert 4 ⟨1, none, none⟩).1).2.ContainsId
        (UsdStageCache.emptyCache.Insert 4 ⟨1, none, none⟩).1 = false) :=
  ⟨by decide,
    ((c5_copy_independent (UsdStageCache.emptyCache.Insert 4 ⟨1, none, none⟩).2
      (UsdStageCache.emptyCache.Insert 4 ⟨1, none, none⟩).1).2.2.2.2 (by decide)).1⟩
